import Mathlib

/-!
Shallow embedding of the iroha on-demand ordering initialization
(`on_demand_ordering_init.cpp`) and the YAC consensus network transport
(`network_impl.cpp` / `network_impl.hpp`), together with proofs about the
round algebra, the connection-manager peer mapping, the hash-window stream
composition, the gate cache eviction set, and the vote transport.
-/

namespace Iroha

/-- Block hashes are opaque byte strings used only as PRNG seeds and stream
elements; they are modelled abstractly as natural numbers. -/
abbrev Hash := Nat

/-- A ledger peer; identity is opaque, modelled by a numeric id. -/
structure Peer where
  id : Nat
deriving DecidableEq

/-- `iroha::consensus::Round`: a pair of a block round and a reject round. -/
structure Round where
  block_round : Nat
  reject_round : Nat
deriving DecidableEq

/-- A ledger-state snapshot; of its contents only the ordered peer list
`ledger_peers` is used by the embedded code. -/
structure LedgerState where
  ledger_peers : List Peer
deriving DecidableEq

/-- `iroha::synchronizer::SynchronizationOutcomeType`. -/
inductive SyncOutcome where
  | kCommit
  | kReject
  | kNothing
deriving DecidableEq

/-- `iroha::synchronizer::SynchronizationEvent`. -/
structure SynchronizationEvent where
  round : Round
  sync_outcome : SyncOutcome
  ledger_state : LedgerState
deriving DecidableEq

/-- Modelled from the spec: `nextCommitRound` from
`ordering/impl/on_demand_common` (not under src/, only its callers are):
`next_commit_round(r) = (r.block_round + 1, 0)`. -/
def nextCommitRound (r : Round) : Round :=
  ⟨r.block_round + 1, 0⟩

/-- Modelled from the spec: `nextRejectRound` from
`ordering/impl/on_demand_common` (not under src/):
`next_reject_round(r) = (r.block_round, r.reject_round + 1)`. -/
def nextRejectRound (r : Round) : Round :=
  ⟨r.block_round, r.reject_round + 1⟩

/-- Modelled from the spec: `currentRejectRoundConsumer` from
`ordering/impl/on_demand_common` (not under src/):
`current_reject_consumer(reject_round) = reject_round + 1`. -/
def currentRejectRoundConsumer (reject_round : Nat) : Nat :=
  reject_round + 1

/-- Modelled from the spec: constant `kNextCommitRoundConsumer = 0` from
`ordering/impl/on_demand_common` (not under src/). -/
def kNextCommitRoundConsumer : Nat := 0

/-- Modelled from the spec: constant `kNextRejectRoundConsumer = 1` from
`ordering/impl/on_demand_common` (not under src/). -/
def kNextRejectRoundConsumer : Nat := 1

/-- The event the ordering gate receives on a synchronization event,
`ordering::OnDemandOrderingGate::RoundSwitch`. -/
structure RoundSwitch where
  round : Round
  ledger_state : LedgerState
deriving DecidableEq

/-- The sync-event-to-RoundSwitch map installed by
`OnDemandOrderingInit::createGate` (src/unnamed/part_001, lines 244-266):
commit advances the block round, reject and nothing advance the reject
round, and the ledger state is carried through unchanged. -/
def gateRoundSwitch (event : SynchronizationEvent) : RoundSwitch :=
  match event.sync_outcome with
  | .kCommit => ⟨nextCommitRound event.round, event.ledger_state⟩
  | .kReject => ⟨nextRejectRound event.round, event.ledger_state⟩
  | .kNothing => ⟨nextRejectRound event.round, event.ledger_state⟩

/-- Claim C2: for every SynchronizationEvent the ordering gate receives a
RoundSwitch whose round is `nextCommitRound e.round = (b+1, 0)` on a commit
outcome and `nextRejectRound e.round = (b, r+1)` on a reject or nothing
outcome (nothing emits identically to reject), carrying the event's ledger
state unchanged. -/
theorem c2_gate_round_switch :
    (∀ r ls, gateRoundSwitch ⟨r, .kCommit, ls⟩ = ⟨nextCommitRound r, ls⟩)
    ∧ (∀ r ls, gateRoundSwitch ⟨r, .kReject, ls⟩ = ⟨nextRejectRound r, ls⟩)
    ∧ (∀ r ls,
        gateRoundSwitch ⟨r, .kNothing, ls⟩ = gateRoundSwitch ⟨r, .kReject, ls⟩)
    ∧ (∀ r : Round, nextCommitRound r = ⟨r.block_round + 1, 0⟩)
    ∧ (∀ r : Round, nextRejectRound r = ⟨r.block_round, r.reject_round + 1⟩)
    ∧ (∀ e : SynchronizationEvent,
        (gateRoundSwitch e).ledger_state = e.ledger_state) := by
  refine ⟨fun r ls => rfl, fun r ls => rfl, fun r ls => rfl,
    fun r => rfl, fun r => rfl, fun e => ?_⟩
  cases e with
  | mk r o ls => cases o <;> rfl

/-- Claim C8, counterexample: `nextCommitRound` is not injective, it maps
the distinct rounds (0,0) and (0,1) to the same round (1,0). -/
theorem c8_counterexample :
    nextCommitRound ⟨0, 0⟩ = nextCommitRound ⟨0, 1⟩
    ∧ (⟨0, 0⟩ : Round) ≠ ⟨0, 1⟩ := by
  constructor
  · rfl
  · decide

/-- Claim C8, amended: `nextCommitRound (b, r) = (b+1, 0)` and
`nextRejectRound (b, r) = (b, r+1)`; `nextRejectRound` is injective,
`nextCommitRound` is not injective (it collapses the reject round), and
there is no round on which the two functions agree. -/
theorem c8_round_algebra :
    (∀ b r, nextCommitRound ⟨b, r⟩ = ⟨b + 1, 0⟩)
    ∧ (∀ b r, nextRejectRound ⟨b, r⟩ = ⟨b, r + 1⟩)
    ∧ Function.Injective nextRejectRound
    ∧ ¬ Function.Injective nextCommitRound
    ∧ (∀ r : Round, nextCommitRound r ≠ nextRejectRound r) := by
  refine ⟨fun b r => rfl, fun b r => rfl, ?_, ?_, ?_⟩
  · intro a b h
    cases a with
    | mk ab ar =>
      cases b with
      | mk bb br =>
        simp only [nextRejectRound, Round.mk.injEq] at h
        simp only [Round.mk.injEq]
        omega
  · intro h
    have h2 : (⟨0, 0⟩ : Round) = ⟨0, 1⟩ := h (rfl : nextCommitRound ⟨0, 0⟩ = nextCommitRound ⟨0, 1⟩)
    simp only [Round.mk.injEq] at h2
    omega
  · intro r h
    simp only [nextCommitRound, nextRejectRound, Round.mk.injEq] at h
    omega

/-- A YAC vote message: `{hash, signature, round}`; hash and signature are
opaque and modelled by numbers. -/
structure VoteMessage where
  hash : Nat
  signature : Nat
  round : Round
deriving DecidableEq

/-- The gRPC status codes observed in `NetworkImpl::SendState`. -/
inductive YacStatus where
  | ok
  | cancelled
deriving DecidableEq

/-- Modelled from the spec: `sameKeys` from `consensus/yac/storage/yac_common`
(not under src/, only its caller `NetworkImpl::SendState` is): a vote bundle
is keyed consistently when it is non-empty and all votes share the same
`(block_round, reject_round)` key. -/
def sameKeys (state : List VoteMessage) : Bool :=
  match state with
  | [] => false
  | v :: rest => rest.all fun w => decide (w.round = v.round)

/-- Server-side vote reception, `NetworkImpl::SendState`
(src/unnamed/part_002, lines 76-105).  The wire votes are modelled after
their deserialization attempt: `none` is a vote that failed
`PbConverters::deserializeVote` and is skipped, `some v` deserialized to `v`.
`hasHandler` models whether the weak subscriber lock succeeds.  The result is
the returned status together with the vote list handed to the notifications
handler (`none` when the handler is not invoked). -/
def NetworkImpl.SendState (hasHandler : Bool)
    (wire : List (Option VoteMessage)) :
    YacStatus × Option (List VoteMessage) :=
  let state := wire.filterMap id
  if state.isEmpty then
    (.cancelled, none)
  else if !(sameKeys state) then
    (.cancelled, none)
  else
    (.ok, if hasHandler then some state else none)

/-- State of the client-side transport `NetworkImpl`: only the stop flag is
relevant to the embedded operations. -/
structure NetworkState where
  stop_requested : Bool
deriving DecidableEq

/-- `NetworkImpl::stop` (src/unnamed/part_002, lines 39-42): set the stop
flag under lock. -/
def NetworkImpl.stop (s : NetworkState) : NetworkState :=
  { s with stop_requested := true }

/-- The observable effect of one `NetworkImpl::sendState` call that was not
suppressed: the constructed outbound `proto::State` request (serialization
is modelled as the identity on abstract votes) and the peer passed to the
client factory. -/
structure OutboundSend where
  dest : Peer
  request_votes : List VoteMessage
deriving DecidableEq

/-- Client-side `NetworkImpl::sendState` (src/unnamed/part_002, lines
44-74): under the stop lock, if stop was requested the call logs and returns
without constructing a request or invoking the client factory; otherwise it
builds the request and asks the client factory for a client to `to`. -/
def NetworkImpl.sendState (s : NetworkState) (dest : Peer)
    (state : List VoteMessage) : NetworkState × Option OutboundSend :=
  if s.stop_requested then
    (s, none)
  else
    (s, some ⟨dest, state⟩)

/-- Claim C4: server-side vote reception returns OK and hands the votes to
the subscribed handler iff the (deserialized) vote list is non-empty and all
votes share one `(block_round, reject_round)` key; otherwise it returns
cancelled and the handler is not invoked. -/
theorem c4_receive_state_acceptance (votes : List VoteMessage) :
    (NetworkImpl.SendState true (votes.map some) = (.ok, some votes)
      ↔ votes ≠ [] ∧ sameKeys votes = true)
    ∧ (votes = [] ∨ sameKeys votes = false →
        NetworkImpl.SendState true (votes.map some) = (.cancelled, none)) := by
  have hfm : (votes.map some).filterMap id = votes := by
    induction votes with
    | nil => rfl
    | cons v rest ih => simp [ih]
  constructor
  · constructor
    · intro h
      simp only [NetworkImpl.SendState, hfm] at h
      by_cases he : votes.isEmpty
      · simp [he] at h
      · by_cases hk : sameKeys votes
        · exact ⟨fun hnil => by simp [hnil] at he, hk⟩
        · simp [he, hk] at h
    · intro ⟨hne, hk⟩
      have he : votes.isEmpty = false := by
        cases votes with
        | nil => exact absurd rfl hne
        | cons v rest => rfl
      simp [NetworkImpl.SendState, hfm, he, hk]
  · intro h
    cases h with
    | inl h =>
      subst h
      rfl
    | inr h =>
      cases votes with
      | nil => rfl
      | cons v rest =>
        have he : (v :: rest).isEmpty = false := rfl
        simp [NetworkImpl.SendState, hfm, he, h]

/-- Claim C4, witness: Scenario E, a bundle with mixed rounds (5,0) and
(5,1) is cancelled and the handler is not invoked; a single-vote bundle is
accepted and handed over. -/
theorem c4_receive_state_acceptance_witness :
    NetworkImpl.SendState true
        ([⟨1, 1, ⟨5, 0⟩⟩, ⟨2, 2, ⟨5, 1⟩⟩].map some) = (.cancelled, none)
    ∧ NetworkImpl.SendState true
        ([⟨1, 1, ⟨5, 0⟩⟩].map some) = (.ok, some [⟨1, 1, ⟨5, 0⟩⟩]) :=
  ⟨(c4_receive_state_acceptance [⟨1, 1, ⟨5, 0⟩⟩, ⟨2, 2, ⟨5, 1⟩⟩]).2
      (Or.inr (by decide)),
    (c4_receive_state_acceptance [⟨1, 1, ⟨5, 0⟩⟩]).1.2 ⟨by decide, by decide⟩⟩

/-- Claim C5: after `stop()` every `sendState` call is a silent no-op that
constructs no outbound message and does not invoke the client factory, and a
second `stop()` causes no additional state change. -/
theorem c5_stop_silences_sends :
    (∀ (s : NetworkState) (dest : Peer) (votes : List VoteMessage),
      NetworkImpl.sendState (NetworkImpl.stop s) dest votes
        = (NetworkImpl.stop s, none))
    ∧ (∀ s : NetworkState,
        NetworkImpl.stop (NetworkImpl.stop s) = NetworkImpl.stop s) := by
  exact ⟨fun s dest votes => rfl, fun s => rfl⟩

/-- Claim C10: the emptiness and same-round checks of server-side vote
reception run over the successfully deserialized votes only: the result
always coincides with running on the deserialized sublist alone, an all
malformed bundle is cancelled as if empty, and a bundle mixing malformed
votes with well-formed votes of one shared round is accepted with exactly
the well-formed votes handed over. -/
theorem c10_receive_state_skips_malformed
    (wire : List (Option VoteMessage)) :
    (NetworkImpl.SendState true wire
      = NetworkImpl.SendState true ((wire.filterMap id).map some))
    ∧ (wire.filterMap id = [] →
        NetworkImpl.SendState true wire = (.cancelled, none))
    ∧ (sameKeys (wire.filterMap id) = true →
        NetworkImpl.SendState true wire = (.ok, some (wire.filterMap id))) := by
  have hfm : ((wire.filterMap id).map some).filterMap id = wire.filterMap id := by
    induction wire.filterMap id with
    | nil => rfl
    | cons v rest ih => simp [ih]
  refine ⟨?_, ?_, ?_⟩
  · simp only [NetworkImpl.SendState, hfm]
  · intro h
    simp [NetworkImpl.SendState, h]
  · intro h
    have hne : (wire.filterMap id).isEmpty = false := by
      cases hl : wire.filterMap id with
      | nil => rw [hl] at h; simp [sameKeys] at h
      | cons v rest => rfl
    simp [NetworkImpl.SendState, hne, h]

/-- Claim C10, witness: a wire bundle of two malformed votes is cancelled,
and a bundle of one malformed vote between two well-formed votes sharing
round (4,2) is accepted with exactly the two well-formed votes. -/
theorem c10_receive_state_skips_malformed_witness :
    NetworkImpl.SendState true [none, none] = (.cancelled, none)
    ∧ NetworkImpl.SendState true
        [some ⟨1, 1, ⟨4, 2⟩⟩, none, some ⟨2, 2, ⟨4, 2⟩⟩]
      = (.ok, some [⟨1, 1, ⟨4, 2⟩⟩, ⟨2, 2, ⟨4, 2⟩⟩]) :=
  ⟨(c10_receive_state_skips_malformed [none, none]).2.1 (by decide),
    (c10_receive_state_skips_malformed
        [some ⟨1, 1, ⟨4, 2⟩⟩, none, some ⟨2, 2, ⟨4, 2⟩⟩]).2.2 (by decide)⟩

/-- A transaction; only its hash is used by the embedded code. -/
structure Transaction where
  hash : Nat
deriving DecidableEq

/-- A committed block, restricted to the fields read by the commit handler
in `OnDemandOrderingInit::createGate`: its transactions and the hashes of
its rejected transactions. -/
structure Block where
  height : Nat
  transactions : List Transaction
  rejected_transactions_hashes : List Nat
deriving DecidableEq

/-- `cache::OrderingGateCache::HashesSetType`, a set of transaction hashes. -/
abbrev HashesSetType := Finset Nat

/-- The commit-notifier map installed by `OnDemandOrderingInit::createGate`
(src/unnamed/part_001, lines 224-243): one shared hash set is filled by a
loop inserting the hash of every transaction of the block, then a loop
inserting every rejected-transaction hash. -/
def blockEvictionHashes (b : Block) : HashesSetType :=
  let hashes := b.transactions.foldl
    (fun hashes tx => insert tx.hash hashes) (∅ : HashesSetType)
  b.rejected_transactions_hashes.foldl
    (fun hashes h => insert h hashes) hashes

/-- Modelled from the spec: the ordering gate cache
(`ordering_gate_cache/on_demand_cache`, not under src/) removes every hash
of the forwarded eviction set when a block commits. -/
def cacheRemove (cache : HashesSetType) (hashes : HashesSetType) :
    HashesSetType :=
  cache \ hashes

theorem foldl_insert_eq_union {α : Type} (f : α → Nat) :
    ∀ (l : List α) (init : Finset Nat),
      l.foldl (fun s x => insert (f x) s) init = init ∪ (l.map f).toFinset := by
  intro l
  induction l with
  | nil => intro init; simp
  | cons a rest ih =>
    intro init
    simp only [List.foldl_cons, ih, List.map_cons, List.toFinset_cons,
      Finset.insert_union, Finset.union_insert]

/-- Claim C6: the eviction set forwarded to the ordering gate cache for a
committed block is exactly the union of the block's transaction hashes and
its rejected-transaction hashes, and after removal the cache holds no hash
of that union. -/
theorem c6_eviction_set (b : Block) (cache : HashesSetType) :
    blockEvictionHashes b
      = (b.transactions.map Transaction.hash).toFinset
        ∪ b.rejected_transactions_hashes.toFinset
    ∧ ∀ h ∈ (b.transactions.map Transaction.hash).toFinset
        ∪ b.rejected_transactions_hashes.toFinset,
        h ∉ cacheRemove cache (blockEvictionHashes b) := by
  have heq : blockEvictionHashes b
      = (b.transactions.map Transaction.hash).toFinset
        ∪ b.rejected_transactions_hashes.toFinset := by
    simp only [blockEvictionHashes, foldl_insert_eq_union]
    have : b.rejected_transactions_hashes.map (fun h => h)
        = b.rejected_transactions_hashes := by simp
    rw [this, Finset.empty_union]
  refine ⟨heq, fun h hmem => ?_⟩
  rw [heq]
  simp only [cacheRemove, Finset.mem_sdiff, not_and, not_not]
  intro _
  exact hmem

/-- Claim C6, witness: for a concrete block with one committed transaction
hash 2 and one rejected hash 3, hash 3 is evicted from the cache. -/
theorem c6_eviction_set_witness :
    (3 : Nat) ∉ cacheRemove {2, 3, 4} (blockEvictionHashes ⟨1, [⟨2⟩], [3]⟩) :=
  (c6_eviction_set ⟨1, [⟨2⟩], [3]⟩ {2, 3, 4}).2 3 (by decide)

/-- `OnDemandConnectionManager::CurrentPeers`: the five role-tagged peers. -/
structure CurrentPeers where
  issuer : Peer
  reject_reject_consumer : Peer
  reject_commit_consumer : Peer
  commit_reject_consumer : Peer
  commit_commit_consumer : Peer
deriving DecidableEq

/-- Modelled from the spec: the permutation oracle
(`common/permutation_generator`, not under src/) maps a hash and a count `n`
to a permutation of `[0, n)`.  The embedding keeps the generator abstract as
a function parameter; this predicate states the permutation contract. -/
def IsPermGen (genPerm : Hash → Nat → List Nat) : Prop :=
  ∀ h n, (genPerm h n).length = n ∧ ∀ i ∈ genPerm h n, i < n

/-- The inner lambda `getOsPeer` of `map_peers` (src/unnamed/part_001,
lines 145-157): `current_peers[permutation[reject_round %
permutation.size()]]`.  The two unchecked C++ indexings are embedded
fallibly: the result is `none` exactly when the C++ expression would divide
by zero (`permutation.size() == 0`) or index out of bounds. -/
def getOsPeer (current_peers : List Peer) (permutation : List Nat)
    (reject_round : Nat) : Option Peer :=
  if permutation.length = 0 then
    none
  else
    (permutation[reject_round % permutation.length]?).bind
      fun i => current_peers[i]?

/-- The `map_peers` lambda of `OnDemandOrderingInit::createConnectionManager`
(src/unnamed/part_001, lines 105-190): from a synchronization event and the
latest three hashes, generate one permutation of the peer list per hash,
advance the event round by the sync outcome, and bind the five roles. -/
def map_peers (genPerm : Hash → Nat → List Nat)
    (latest_commit : SynchronizationEvent)
    (current_hashes : Hash × Hash × Hash) : Option CurrentPeers :=
  let current_peers := latest_commit.ledger_state.ledger_peers
  let permCurrent := genPerm current_hashes.1 current_peers.length
  let permNext := genPerm current_hashes.2.1 current_peers.length
  let permAfterNext := genPerm current_hashes.2.2 current_peers.length
  let current_round :=
    match latest_commit.sync_outcome with
    | .kCommit => nextCommitRound latest_commit.round
    | .kReject => nextRejectRound latest_commit.round
    | .kNothing => nextRejectRound latest_commit.round
  do
    let reject_reject ← getOsPeer current_peers permCurrent
      (currentRejectRoundConsumer current_round.reject_round)
    let reject_commit ← getOsPeer current_peers permNext
      kNextCommitRoundConsumer
    let commit_reject ← getOsPeer current_peers permNext
      kNextRejectRoundConsumer
    let commit_commit ← getOsPeer current_peers permAfterNext
      kNextCommitRoundConsumer
    let issuer ← getOsPeer current_peers permCurrent
      current_round.reject_round
    pure ⟨issuer, reject_reject, reject_commit, commit_reject, commit_commit⟩

/-- The claim's index formula `ledger_peers[P[k mod N]]`, with `N` the peer
count, written with defaulted lookups. -/
def peerAt (ledger_peers : List Peer) (perm : List Nat) (k : Nat) : Peer :=
  ledger_peers.getD (perm.getD (k % ledger_peers.length) 0) ⟨0⟩

theorem getOsPeer_eq_peerAt (current_peers : List Peer) (perm : List Nat)
    (k : Nat) (hlen : perm.length = current_peers.length)
    (hval : ∀ i ∈ perm, i < current_peers.length)
    (hne : current_peers ≠ []) :
    getOsPeer current_peers perm k = some (peerAt current_peers perm k) := by
  have hpos : 0 < current_peers.length := List.length_pos.mpr hne
  have hplen : perm.length ≠ 0 := by omega
  have hidx : k % perm.length < perm.length :=
    Nat.mod_lt _ (Nat.pos_of_ne_zero hplen)
  have hv : perm[k % perm.length] < current_peers.length :=
    hval _ (List.getElem_mem hidx)
  simp only [getOsPeer, hplen, if_false, peerAt, ← hlen]
  rw [List.getElem?_eq_getElem hidx]
  simp only [Option.bind_some, Option.some_bind]
  rw [List.getElem?_eq_getElem hv,
    List.getD_eq_getElem perm 0 hidx,
    List.getD_eq_getElem current_peers ⟨0⟩ hv]

/-- Claim C1: for a synchronization event with hash window (H0, H1, H2) and
non-empty peer list of length N, with `current` the outcome-advanced round
and P0, P1, P2 the permutations derived from H0, H1, H2, the produced
CurrentPeers is exactly Issuer = peers[P0[current.reject_round mod N]],
RejectReject = peers[P0[(current.reject_round + 1) mod N]], RejectCommit =
peers[P1[0 mod N]], CommitReject = peers[P1[1 mod N]], CommitCommit =
peers[P2[0 mod N]]. -/
theorem c1_current_peers_mapping (genPerm : Hash → Nat → List Nat)
    (hg : IsPermGen genPerm) (e : SynchronizationEvent)
    (h0 h1 h2 : Hash) (hne : e.ledger_state.ledger_peers ≠ []) :
    map_peers genPerm e (h0, h1, h2)
      = some
        { issuer := peerAt e.ledger_state.ledger_peers
            (genPerm h0 e.ledger_state.ledger_peers.length)
            (if e.sync_outcome = .kCommit then nextCommitRound e.round
              else nextRejectRound e.round).reject_round
        , reject_reject_consumer := peerAt e.ledger_state.ledger_peers
            (genPerm h0 e.ledger_state.ledger_peers.length)
            ((if e.sync_outcome = .kCommit then nextCommitRound e.round
              else nextRejectRound e.round).reject_round + 1)
        , reject_commit_consumer := peerAt e.ledger_state.ledger_peers
            (genPerm h1 e.ledger_state.ledger_peers.length) 0
        , commit_reject_consumer := peerAt e.ledger_state.ledger_peers
            (genPerm h1 e.ledger_state.ledger_peers.length) 1
        , commit_commit_consumer := peerAt e.ledger_state.ledger_peers
            (genPerm h2 e.ledger_state.ledger_peers.length) 0 } := by
  have hlen0 := (hg h0 e.ledger_state.ledger_peers.length).1
  have hval0 := (hg h0 e.ledger_state.ledger_peers.length).2
  have hlen1 := (hg h1 e.ledger_state.ledger_peers.length).1
  have hval1 := (hg h1 e.ledger_state.ledger_peers.length).2
  have hlen2 := (hg h2 e.ledger_state.ledger_peers.length).1
  have hval2 := (hg h2 e.ledger_state.ledger_peers.length).2
  cases e with
  | mk r o ls =>
    cases o <;>
      simp only [map_peers, currentRejectRoundConsumer,
        kNextCommitRoundConsumer, kNextRejectRoundConsumer,
        getOsPeer_eq_peerAt _ _ _ hlen0 hval0 hne,
        getOsPeer_eq_peerAt _ _ _ hlen1 hval1 hne,
        getOsPeer_eq_peerAt _ _ _ hlen2 hval2 hne,
        Option.bind_some, Option.some_bind] <;>
      rfl

/-- Claim C1, witness: the identity permutation generator satisfies the
permutation contract, and on three peers with a commit event on round (5,1)
the mapping evaluates to the claimed index formulas. -/
theorem c1_current_peers_mapping_witness :
    map_peers (fun _ n => List.range n)
        ⟨⟨5, 1⟩, .kCommit, ⟨[⟨10⟩, ⟨11⟩, ⟨12⟩]⟩⟩ (1, 2, 3)
      = some ⟨⟨10⟩, ⟨11⟩, ⟨10⟩, ⟨11⟩, ⟨10⟩⟩ := by
  have hg : IsPermGen fun _ n => List.range n := by
    intro h n
    exact ⟨List.length_range n, fun i hi => List.mem_range.mp hi⟩
  rw [c1_current_peers_mapping (fun _ n => List.range n) hg
    ⟨⟨5, 1⟩, .kCommit, ⟨[⟨10⟩, ⟨11⟩, ⟨12⟩]⟩⟩ 1 2 3 (by decide)]
  decide

/-- Claim C7: with an empty `ledger_peers` list the permutations are
generated with size zero, and `map_peers` reaches the expression
`reject_round % permutation.size()` with `permutation.size() == 0`, a
modulo by zero (undefined behavior in the C++ source), embedded as the
`none` outcome of `getOsPeer`; no well-defined CurrentPeers value exists. -/
theorem c7_empty_peers_modulo_zero :
    (∀ k, getOsPeer [] ((fun _ n => List.range n) 1 ([] : List Peer).length) k
        = none)
    ∧ map_peers (fun _ n => List.range n) ⟨⟨5, 0⟩, .kCommit, ⟨[]⟩⟩ (1, 2, 3)
      = none := by
  constructor
  · intro k
    rfl
  · rfl

/-- One item of an interleaved local trace: a committed block (represented
by its hash, since `blocks.map(hash)` is the first step of the pipeline) or
a synchronization event. -/
inductive TraceItem where
  | block (h : Hash)
  | sync (e : SynchronizationEvent)

/-- Three-way zip, the shape of `all_hashes.zip(hashes_without_first,
hashes_without_first_two)`. -/
def zip3 {α β γ : Type} : List α → List β → List γ → List (α × β × γ)
  | a :: as, b :: bs, c :: cs => (a, b, c) :: zip3 as bs cs
  | _, _, _ => []

/-- The `latest_hashes` observable of
`OnDemandOrderingInit::createConnectionManager` (src/unnamed/part_001,
lines 95-103) as a function of the hash stream seen so far: the zip of the
stream with itself skipped by one and by two. -/
def latestHashes (all_hashes : List Hash) : List (Hash × Hash × Hash) :=
  zip3 all_hashes (all_hashes.drop 1) (all_hashes.drop 2)

/-- The `sync_events_with_hashes` combination (src/unnamed/part_001, lines
192-200) over an interleaved trace: the hash stream starts with the two
initial hashes and grows at each committed block; a sync event combines
with the latest element `latest_hashes` has emitted so far
(`with_latest_from`), and produces nothing while `latest_hashes` is still
empty. -/
def sync_events_with_hashes (all_hashes : List Hash) :
    List TraceItem → List (SynchronizationEvent × (Hash × Hash × Hash))
  | [] => []
  | .block h :: rest => sync_events_with_hashes (all_hashes ++ [h]) rest
  | .sync e :: rest =>
    match (latestHashes all_hashes).getLast? with
    | some t => (e, t) :: sync_events_with_hashes all_hashes rest
    | none => sync_events_with_hashes all_hashes rest

/-- The spec's words: the three most recent elements of the hash stream in
commit order (oldest of the three first), or nothing when fewer than three
hashes exist. -/
def lastThreeHashes : List Hash → Option (Hash × Hash × Hash)
  | [a, b, c] => some (a, b, c)
  | _ :: b :: c :: d :: t => lastThreeHashes (b :: c :: d :: t)
  | _ => none

/-- Refinement counterpart of `sync_events_with_hashes`, following the
spec's words: every sync event consults the three most recent committed
hashes as of that moment and is dropped while the three-hash window is not
yet full. -/
def specSyncTriples (all_hashes : List Hash) :
    List TraceItem → List (SynchronizationEvent × (Hash × Hash × Hash))
  | [] => []
  | .block h :: rest => specSyncTriples (all_hashes ++ [h]) rest
  | .sync e :: rest =>
    match lastThreeHashes all_hashes with
    | some t => (e, t) :: specSyncTriples all_hashes rest
    | none => specSyncTriples all_hashes rest

theorem latestHashes_getLast? (l : List Hash) :
    (latestHashes l).getLast? = lastThreeHashes l := by
  induction l with
  | nil => rfl
  | cons a tail ih =>
    match tail with
    | [] => rfl
    | [b] => rfl
    | [b, c] => rfl
    | b :: c :: d :: t =>
      have hstep : latestHashes (a :: b :: c :: d :: t)
          = (a, b, c) :: latestHashes (b :: c :: d :: t) := rfl
      have hcons : latestHashes (b :: c :: d :: t)
          = (b, c, d) :: zip3 (c :: d :: t) (d :: t) t := rfl
      rw [hstep, hcons, List.getLast?_cons_cons, ← hcons, ih]
      rfl

theorem sync_events_with_hashes_eq_spec :
    ∀ (trace : List TraceItem) (all_hashes : List Hash),
      sync_events_with_hashes all_hashes trace
        = specSyncTriples all_hashes trace := by
  intro trace
  induction trace with
  | nil => intro all_hashes; rfl
  | cons item rest ih =>
    intro all_hashes
    cases item with
    | block h =>
      simp only [sync_events_with_hashes, specSyncTriples, ih]
    | sync e =>
      simp only [sync_events_with_hashes, specSyncTriples,
        latestHashes_getLast?, ih]

/-- Claim C3: over every interleaved trace the code's stream composition
(zip of the hash stream with its one- and two-skipped tails, combined with
sync events by latest value) produces, for each sync event, exactly the
three most recent elements of the stream
`initial_hashes[0], initial_hashes[1], hash(block 1), ...` as of that
event, oldest of the triple first (the `kCurrentRound` slot); and a trace
with no committed block produces no output at all, so no CurrentPeers value
arises before the first block completes the window. -/
theorem c3_hash_window :
    (∀ (i0 i1 : Hash) (trace : List TraceItem),
      sync_events_with_hashes [i0, i1] trace = specSyncTriples [i0, i1] trace)
    ∧ (∀ (i0 i1 : Hash) (events : List SynchronizationEvent),
        sync_events_with_hashes [i0, i1] (events.map .sync) = []) := by
  constructor
  · intro i0 i1 trace
    exact sync_events_with_hashes_eq_spec trace [i0, i1]
  · intro i0 i1 events
    induction events with
    | nil => rfl
    | cons e rest ih =>
      simp only [List.map_cons, sync_events_with_hashes]
      exact ih

/-- Strict lexicographic order on rounds, `(block_round, reject_round)`. -/
def roundLt (a b : Round) : Prop :=
  a.block_round < b.block_round
    ∨ (a.block_round = b.block_round ∧ a.reject_round < b.reject_round)

instance (a b : Round) : Decidable (roundLt a b) :=
  inferInstanceAs (Decidable (a.block_round < b.block_round
    ∨ (a.block_round = b.block_round ∧ a.reject_round < b.reject_round)))

/-- Reflexive closure of `roundLt`. -/
def roundLe (a b : Round) : Prop :=
  roundLt a b ∨ a = b

instance (a b : Round) : Decidable (roundLe a b) :=
  inferInstanceAs (Decidable (roundLt a b ∨ a = b))

/-- The rounds carried by the RoundSwitch events the gate emits for a local
trace of synchronization events. -/
def emittedRounds (trace : List SynchronizationEvent) : List Round :=
  trace.map fun e => (gateRoundSwitch e).round

theorem roundLt_of_le_of_lt {a b c : Round}
    (hab : roundLe a b) (hbc : roundLt b c) : roundLt a c := by
  cases hab with
  | inr h => rw [h]; exact hbc
  | inl h =>
    cases h with
    | inl h1 =>
      cases hbc with
      | inl h2 => exact Or.inl (Nat.lt_trans h1 h2)
      | inr h2 => exact Or.inl (h2.1 ▸ h1)
    | inr h1 =>
      cases hbc with
      | inl h2 => exact Or.inl (h1.1 ▸ h2)
      | inr h2 => exact Or.inr ⟨h1.1.trans h2.1, Nat.lt_trans h1.2 h2.2⟩

theorem roundLt_gateRoundSwitch (e : SynchronizationEvent) :
    roundLt e.round (gateRoundSwitch e).round := by
  cases e with
  | mk r o ls =>
    cases o with
    | kCommit => exact Or.inl (Nat.lt_succ_self _)
    | kReject => exact Or.inr ⟨rfl, Nat.lt_succ_self _⟩
    | kNothing => exact Or.inr ⟨rfl, Nat.lt_succ_self _⟩

/-- Claim C9, counterexample: the gate's emission is a pure map over the
incoming events, so a trace whose second event carries a smaller round than
the first (round (5,0) then round (3,0), both commits) yields an emitted
RoundSwitch sequence (6,0), (4,0) that is not strictly increasing. -/
theorem c9_counterexample :
    ¬ List.Chain' roundLt
        (emittedRounds
          [⟨⟨5, 0⟩, .kCommit, ⟨[]⟩⟩, ⟨⟨3, 0⟩, .kCommit, ⟨[]⟩⟩]) := by
  intro h
  have h2 : roundLt ⟨6, 0⟩ ⟨4, 0⟩ := List.chain'_pair.mp h
  exact absurd h2 (by decide)

/-- Claim C9, amended: for any trace of synchronization events in which
each event's round is at least the round of the previously emitted
RoundSwitch (as holds in the closed loop where the synchronizer resolves
exactly the round the gate last switched to), the emitted RoundSwitch
rounds are strictly increasing in the lexicographic order. -/
theorem c9_round_monotonicity (trace : List SynchronizationEvent)
    (hwf : List.Chain'
      (fun a b => roundLe (gateRoundSwitch a).round b.round) trace) :
    List.Chain' roundLt (emittedRounds trace) := by
  unfold emittedRounds
  rw [List.chain'_map]
  refine List.Chain'.imp ?_ hwf
  intro a b hab
  exact roundLt_of_le_of_lt hab (roundLt_gateRoundSwitch b)

/-- Claim C9, witness: the two-event trace commit on (1,0) then reject on
(2,0) is well formed and its emitted rounds (2,0), (2,1) are strictly
increasing. -/
theorem c9_round_monotonicity_witness :
    List.Chain' roundLt
      (emittedRounds
        [⟨⟨1, 0⟩, .kCommit, ⟨[]⟩⟩, ⟨⟨2, 0⟩, .kReject, ⟨[]⟩⟩]) :=
  c9_round_monotonicity
    [⟨⟨1, 0⟩, .kCommit, ⟨[]⟩⟩, ⟨⟨2, 0⟩, .kReject, ⟨[]⟩⟩]
    (List.chain'_pair.mpr (by decide))

end Iroha
